import Mathlib

/-!
Verification development for the ASTwalker static-analysis pipeline
(`src/ASTwalker.py`).  The Python source is shallowly embedded: qualified
names are `String`s, Python `dict`s become insertion-ordered association
lists with overwrite-on-update, Python `set`s become `Finset`s, and the
`networkx.DiGraph` becomes a pair of finite sets (node ids, directed
edges).  Rendering attributes (colors, labels, shapes) are presentation
data with no influence on graph identity and are not modelled.
-/

set_option autoImplicit false

namespace ASTwalker

/-! ### String helpers modelling the Python string operations used -/

/-- Scan a character list for the first occurrence of `c`; return the parts
before and after it.  Models locating the separator for Python's
`s.split(c, 1)` (used as `node_id.split(':', 1)` in the source). -/
def breakAtChar (c : Char) : List Char → Option (List Char × List Char)
  | [] => none
  | x :: xs =>
      if x = c then some ([], xs)
      else (breakAtChar c xs).map (fun p => (x :: p.1, p.2))

/-- Python `s.split(c)` on character lists: `[] ↦ [[]]`, separators split
eagerly, so `"a.".split('.') = ["a", ""]`. -/
def splitChar (c : Char) : List Char → List (List Char)
  | [] => [[]]
  | x :: xs =>
      if x = c then [] :: splitChar c xs
      else
        match splitChar c xs with
        | [] => [[x]]
        | y :: ys => (x :: y) :: ys

/-- Python `s.split('.')` lifted to `String`. -/
def pySplit (c : Char) (s : String) : List String :=
  (splitChar c s.data).map String.mk

/-- Python `'.'.join(parts)` restricted to joining with a dot. -/
def joinDot : List String → String
  | [] => ""
  | [x] => x
  | x :: xs => x ++ "." ++ joinDot xs

/-- Python `s.startswith(pre)`: a raw character-prefix test (notably NOT a
dotted-component test; `"apple".startswith("app")` is true). -/
def pyStartsWith (s pre : String) : Bool :=
  pre.data.isPrefixOf s.data

/-- Python `c in s` for a single character. -/
def pyContains (c : Char) (s : String) : Bool :=
  s.data.contains c

/-- Python `s.rsplit('.', k)[0]`: the text before the last `min k (dots)`
dots.  When `s` holds fewer than `k` dots the whole first component is
kept (Python splits at however many separators exist). -/
def pyRsplitHead (s : String) (k : Nat) : String :=
  let parts := pySplit '.' s
  joinDot (parts.take (parts.length - min k (parts.length - 1)))

/-- Python `PurePath(f).with_suffix('')` on a single file name: drop the
final extension when the name has a dot that is neither leading nor
trailing; otherwise the name is unchanged. -/
def stripExt (f : String) : String :=
  match breakAtChar '.' f.data.reverse with
  | none => f
  | some (extRev, stemRev) =>
      if stemRev = [] then f
      else if extRev = [] then f
      else String.mk stemRev.reverse

/-- The part of a node id after its kind tag: `n.split(':', 1)[1]`.
Every node id the pipeline builds contains a colon; on a colon-free id the
Python expression would raise `IndexError`, so `none` marks that case. -/
def qualPart (n : String) : Option String :=
  (breakAtChar ':' n.data).map (fun p => String.mk p.2)

/-! ### The analyzed fragment of the Python AST -/

/-- Expression forms the analyzer inspects: bare names, attribute access,
calls, and an inert constant standing for every other expression kind. -/
inductive PyExpr where
  | name (id : String)
  | attribute (value : PyExpr) (attr : String)
  | call (func : PyExpr) (args : List PyExpr)
  | const
deriving Repr

/-- Statement forms the analyzer inspects.  `imp` is `import a [as b], ...`
(pairs of dotted name and optional alias); `impFrom` is
`from [.]*module import n [as a], ...` with `level` counting the leading
dots; bodies of other compound statements are flattened into these. -/
inductive PyStmt where
  | imp (names : List (String × Option String))
  | impFrom (module : Option String) (names : List (String × Option String)) (level : Nat)
  | classDef (nm : String) (body : List PyStmt)
  | funcDef (nm : String) (body : List PyStmt)
  | exprStmt (e : PyExpr)
  | pass
deriving Repr

/-! ### The per-file analyzer (`CodeAnalyzer`) -/

/-- Python-`dict` update on an insertion-ordered association list:
overwrite in place when the key exists, append otherwise. -/
def dictInsert (d : List (String × String)) (k v : String) : List (String × String) :=
  if d.any (fun p => p.1 == k) then
    d.map (fun p => if p.1 == k then (k, v) else p)
  else d ++ [(k, v)]

/-- Python-`dict` lookup on an association list. -/
def dictGet (d : List (String × String)) (k : String) : Option String :=
  (d.find? (fun p => p.1 == k)).map Prod.snd

/-- The mutable fields of `CodeAnalyzer` (source lines 60–67). -/
structure AnalyzerState where
  mod : String
  imports : Finset String
  aliases : List (String × String)
  func_defs : List (String × String)
  calls : List (String × String)
  current_fn : Option String
  current_class : Option String
deriving DecidableEq

/-- Fresh analyzer state for one module (`CodeAnalyzer.__init__`). -/
def initState (mod : String) : AnalyzerState :=
  { mod := mod, imports := ∅, aliases := [], func_defs := [], calls := [],
    current_fn := none, current_class := none }

/-- Resolution of the module part of a `from`-import (source lines 79–82):
`node.module or ''`, and when `level` dots are present, replace it by
`self.mod.rsplit('.', level)[0]` glued to the stated suffix. -/
def importFromBase (mod : String) (module? : Option String) (level : Nat) : String :=
  let module := module?.getD ""
  if level ≠ 0 then
    let parent := pyRsplitHead mod level
    if module ≠ "" then parent ++ "." ++ module else parent
  else module

/-- The body of `visit_Call` (source lines 110–132): resolve the callee,
and when one is found append `(caller, callee)` where the caller is the
current function or the synthetic module-level caller. -/
def recordCall (rootPkg : String) (s : AnalyzerState) (f : PyExpr) : AnalyzerState :=
  let callee : Option String :=
    match f with
    | .name nm =>
        match dictGet s.func_defs nm with
        | some q => some q
        | none =>
            match dictGet s.aliases nm with
            | some full =>
                if pyStartsWith full rootPkg then
                  if pyContains '.' full then some ("function:" ++ full)
                  else some ("module:" ++ full)
                else none
            | none => none
    | .attribute (.name vid) attr =>
        match dictGet s.aliases vid with
        | some full =>
            if pyStartsWith full rootPkg then
              some ("function:" ++ full ++ "." ++ attr)
            else none
        | none => none
    | _ => none
  match callee with
  | some c =>
      { s with calls := s.calls ++ [(s.current_fn.getD ("module:" ++ s.mod), c)] }
  | none => s

/-- One `import` statement (source lines 69–76): record each alias, and add
targets passing the raw `startswith(ROOT_PKG)` test to the import set. -/
def visitImport (rootPkg : String) (s : AnalyzerState)
    (names : List (String × Option String)) : AnalyzerState :=
  names.foldl (fun s a =>
    let full := a.1
    let asn := a.2.getD a.1
    let s := { s with aliases := dictInsert s.aliases asn full }
    if pyStartsWith full rootPkg then { s with imports := insert full s.imports }
    else s) s

/-- One `from … import …` statement (source lines 78–92): resolve the base
module, skip `*`, record each resolved qualified name in the alias table,
and — when the qualified name passes the prefix test — add the BASE MODULE
(not the qualified name) to the import set. -/
def visitImportFrom (rootPkg : String) (s : AnalyzerState) (module? : Option String)
    (names : List (String × Option String)) (level : Nat) : AnalyzerState :=
  let module := importFromBase s.mod module? level
  names.foldl (fun s a =>
    if a.1 = "*" then s
    else
      let full := if module ≠ "" then module ++ "." ++ a.1 else a.1
      let s := { s with aliases := dictInsert s.aliases (a.2.getD a.1) full }
      if pyStartsWith full rootPkg then { s with imports := insert module s.imports }
      else s) s

mutual

/-- Visitor dispatch on statements (`visit_Import`, `visit_ImportFrom`,
`visit_ClassDef`, `visit_FunctionDef`; other statements only recurse). -/
def visitStmt (rootPkg : String) (s : AnalyzerState) : PyStmt → AnalyzerState
  | .imp names => visitImport rootPkg s names
  | .impFrom module? names level => visitImportFrom rootPkg s module? names level
  | .classDef nm body =>
      let s1 := { s with current_class := some nm }
      let s2 := visitStmts rootPkg s1 body
      { s2 with current_class := s.current_class }
  | .funcDef nm body =>
      let qual :=
        match s.current_class with
        | some cls => "function:" ++ s.mod ++ "." ++ cls ++ "." ++ nm
        | none => "function:" ++ s.mod ++ "." ++ nm
      let s1 := { s with func_defs := dictInsert s.func_defs nm qual,
                         current_fn := some qual }
      let s2 := visitStmts rootPkg s1 body
      { s2 with current_fn := s.current_fn }
  | .exprStmt e => visitExpr rootPkg s e
  | .pass => s

/-- Sequential traversal of a statement list (`generic_visit` order). -/
def visitStmts (rootPkg : String) (s : AnalyzerState) : List PyStmt → AnalyzerState
  | [] => s
  | st :: rest => visitStmts rootPkg (visitStmt rootPkg s st) rest

/-- Visitor dispatch on expressions: `visit_Call` records the call, then
`generic_visit` descends into the callee expression and the arguments. -/
def visitExpr (rootPkg : String) (s : AnalyzerState) : PyExpr → AnalyzerState
  | .name _ => s
  | .const => s
  | .attribute v _ => visitExpr rootPkg s v
  | .call f args => visitExprs rootPkg (visitExpr rootPkg (recordCall rootPkg s f) f) args

/-- Sequential traversal of an expression list. -/
def visitExprs (rootPkg : String) (s : AnalyzerState) : List PyExpr → AnalyzerState
  | [] => s
  | e :: rest => visitExprs rootPkg (visitExpr rootPkg s e) rest

end

/-- Analyze one file's parsed body under a module name: `CodeAnalyzer(mod)`
followed by `.visit(tree)`. -/
def analyze (rootPkg mod : String) (body : List PyStmt) : AnalyzerState :=
  visitStmts rootPkg (initState mod) body

/-! ### The module namer (`module_name`, source lines 54–56) -/

/-- A source file under the root, given by its directory components
relative to the root and its file name:
`path.relative_to(root_dir).parts = dirs ++ [filename]`. -/
structure SrcFile where
  dirs : List String
  filename : String
  body : List PyStmt

/-- `module_name`: `ROOT_PKG + '.' + '.'.join(rel.with_suffix('').parts)`;
`with_suffix('')` strips the extension off the last component only. -/
def moduleName (rootPkg : String) (dirs : List String) (filename : String) : String :=
  rootPkg ++ "." ++ joinDot (dirs ++ [stripExt filename])

/-! ### The graph builder (`build_graph`, source lines 136–185) -/

/-- A `networkx.DiGraph` up to rendering attributes: node identity is the
full id string (kind tag, colon, qualified name); edges are ordered pairs
of node ids; both collections are sets, so re-adding is a no-op. -/
structure Graph where
  nodes : Finset String
  edges : Finset (String × String)
deriving DecidableEq

/-- The graph before any file's facts are merged. -/
def emptyGraph : Graph := ⟨∅, ∅⟩

/-- `G.add_node(id)` (attributes dropped). -/
def addNode (G : Graph) (id : String) : Graph :=
  { G with nodes := insert id G.nodes }

/-- `G.add_edge(u, v)`: networkx inserts missing endpoints as nodes. -/
def addEdge (G : Graph) (u v : String) : Graph :=
  { nodes := insert u (insert v G.nodes), edges := insert (u, v) G.edges }

/-- The placeholder step of source lines 170–182: add the node only when
absent (the source also picks a style from the id's kind tag; styles are
presentation data and are dropped here). -/
def ensureNode (G : Graph) (id : String) : Graph :=
  if id ∈ G.nodes then G else addNode G id

/-- One iteration of the call-edge loop (source lines 169–183). -/
def addCallStep (G : Graph) (c : String × String) : Graph :=
  addEdge (ensureNode (ensureNode G c.1) c.2) c.1 c.2

/-- The call-edge loop over one file's recorded calls. -/
def addCalls (G : Graph) (l : List (String × String)) : Graph :=
  l.foldl addCallStep G

/-- The import loop (source lines 155–158): iterating `add_node`/`add_edge`
over the set `ca.imports`; its net effect is this union of images.  The
`add_edge` endpoint `modId` is already a node when this runs. -/
def addImports (G : Graph) (modId : String) (ims : Finset String) : Graph :=
  { nodes := G.nodes ∪ ims.image (fun im => "module:" ++ im),
    edges := G.edges ∪ ims.image (fun im => (modId, "module:" ++ im)) }

/-- One iteration of the declared-function loop (source lines 160–167). -/
def addFuncStep (modId : String) (G : Graph) (q : String) : Graph :=
  addEdge (addNode G q) modId q

/-- The declared-function loop over `ca.func_defs.values()`. -/
def addFuncDefs (G : Graph) (modId : String) (l : List String) : Graph :=
  l.foldl (addFuncStep modId) G

/-- Pass 2 for one file (source lines 147–183): file node, module node,
file→module edge, import edges, declares edges, then call edges. -/
def addFileFacts (G : Graph) (mod : String) (ca : AnalyzerState) : Graph :=
  let fileId := "file:" ++ mod
  let modId := "module:" ++ mod
  let G1 := addEdge (addNode (addNode G fileId) modId) fileId modId
  let G2 := addImports G1 modId ca.imports
  let G3 := addFuncDefs G2 modId (ca.func_defs.map Prod.snd)
  addCalls G3 ca.calls

/-- `build_graph`: Pass 1 analyzes every file (collecting results), Pass 2
folds every file's facts into one graph. -/
def buildGraph (rootPkg : String) (files : List SrcFile) : Graph :=
  let results := files.map (fun f =>
    let mod := moduleName rootPkg f.dirs f.filename
    (mod, analyze rootPkg mod f.body))
  results.foldl (fun G r => addFileFacts G r.1 r.2) emptyGraph

/-! ### The pruner (`prune_graph`, source lines 188–194) -/

/-- The removal test of source lines 190–192 on one node id: the part after
the kind tag is an ignore entry, or extends one by a dot. -/
def pruneMatch (ig : List String) (n : String) : Bool :=
  match qualPart n with
  | some nm => ig.contains nm || ig.any (fun i => pyStartsWith nm (i ++ "."))
  | none => false

/-- `prune_graph`: drop every matching node and (as `remove_nodes_from`
does) every edge incident to a dropped node. -/
def pruneGraph (ig : List String) (G : Graph) : Graph :=
  let removed := G.nodes.filter (fun n => pruneMatch ig n = true)
  { nodes := G.nodes \ removed,
    edges := G.edges.filter (fun e => e.1 ∉ removed ∧ e.2 ∉ removed) }

/-! ### Spec-side definition for the relative-import claim (C6) -/

/-- Modelled from the spec: the claimed base of a relative import — the
current module with its last `k` dotted components trimmed off,
concatenated with the stated module suffix when one is present.  Kept
separate from `importFromBase` (the source's resolution) so the two can be
compared. -/
def specRelBase (M : String) (k : Nat) (module? : Option String) : String :=
  let parts := pySplit '.' M
  let base := joinDot (parts.take (parts.length - k))
  match module? with
  | some m => if base ≠ "" then base ++ "." ++ m else m
  | none => base

/-! ### Basic lemmas about the helpers -/

theorem Graph.eq_of {a b : Graph} (h1 : a.nodes = b.nodes) (h2 : a.edges = b.edges) :
    a = b := by
  cases a; cases b; cases h1; cases h2; rfl

theorem ensureNode_eq (G : Graph) (id : String) : ensureNode G id = addNode G id := by
  unfold ensureNode
  split
  case isTrue h => exact Graph.eq_of (Finset.insert_eq_self.mpr h).symm rfl
  case isFalse h => rfl

theorem string_ne_empty_of_data {s : String} (h : s.data ≠ []) : s ≠ "" := by
  intro hc; apply h; rw [hc]

theorem data_ne_of_ne_empty {s : String} (h : s ≠ "") : s.data ≠ [] := by
  intro hc; apply h; cases s; simp_all

theorem find?_map_overwrite (d : List (String × String)) (k v : String)
    (h : d.any (fun p => p.1 == k) = true) :
    (d.map (fun p => if p.1 == k then (k, v) else p)).find? (fun p => p.1 == k) =
      some (k, v) := by
  induction d with
  | nil => simp at h
  | cons p rest ih =>
      rw [List.map_cons]
      by_cases hp : (p.1 == k) = true
      · rw [if_pos hp, List.find?_cons_of_pos _ (by simp)]
      · have h' : rest.any (fun p => p.1 == k) = true := by
          simpa [List.any_cons, hp] using h
        have hpf : (p.1 == k) = false := by simpa using hp
        rw [if_neg hp]
        simp only [List.find?_cons, hpf]
        exact ih h'

theorem dictGet_dictInsert_self (d : List (String × String)) (k v : String) :
    dictGet (dictInsert d k v) k = some v := by
  unfold dictInsert dictGet
  by_cases h : d.any (fun p => p.1 == k) = true
  · rw [if_pos h, find?_map_overwrite d k v h]
    rfl
  · rw [if_neg h, List.find?_append]
    have hnone : d.find? (fun p => p.1 == k) = none := by
      rw [List.find?_eq_none]
      intro x hx hpx
      exact h (List.any_eq_true.mpr ⟨x, hx, hpx⟩)
    rw [hnone]
    simp [List.find?]

theorem splitChar_ne_nil (c : Char) (l : List Char) : splitChar c l ≠ [] := by
  cases l with
  | nil => simp [splitChar]
  | cons x xs =>
      unfold splitChar
      split
      · simp
      · split <;> simp

theorem splitChar_append (c : Char) (l1 l2 : List Char) :
    splitChar c (l1 ++ c :: l2) = splitChar c l1 ++ splitChar c l2 := by
  induction l1 with
  | nil => simp [splitChar]
  | cons x xs ih =>
      have hstep : (x :: xs) ++ c :: l2 = x :: (xs ++ c :: l2) := rfl
      rw [hstep]
      by_cases hx : x = c
      · simp only [splitChar, if_pos hx, ih, List.cons_append]
      · simp only [splitChar, if_neg hx, ih]
        obtain ⟨y, ys, hy⟩ := List.exists_cons_of_ne_nil (splitChar_ne_nil c xs)
        rw [hy]
        simp

theorem splitChar_of_not_mem {c : Char} {l : List Char} (h : c ∉ l) :
    splitChar c l = [l] := by
  induction l with
  | nil => rfl
  | cons x xs ih =>
      have hx : x ≠ c := fun hc => h (hc ▸ List.mem_cons_self x xs)
      have hxs : c ∉ xs := fun hc => h (List.mem_cons_of_mem x hc)
      unfold splitChar
      rw [if_neg hx, ih hxs]

theorem data_append_dot (a b : String) :
    (a ++ "." ++ b).data = a.data ++ '.' :: b.data := by
  rw [String.data_append, String.data_append, List.append_assoc]
  rfl

theorem pySplit_append_dot (a b : String) :
    pySplit '.' (a ++ "." ++ b) = pySplit '.' a ++ pySplit '.' b := by
  unfold pySplit
  rw [data_append_dot, splitChar_append, List.map_append]

theorem pySplit_of_dot_free {s : String} (h : pyContains '.' s = false) :
    pySplit '.' s = [s] := by
  unfold pySplit
  have hmem : '.' ∉ s.data := by
    intro hc
    simp [pyContains] at h
    exact h hc
  rw [splitChar_of_not_mem hmem]
  rfl

theorem joinDot_cons (x : String) (xs : List String) (h : xs ≠ []) :
    joinDot (x :: xs) = x ++ "." ++ joinDot xs := by
  cases xs with
  | nil => exact absurd rfl h
  | cons y ys => rfl

theorem joinDot_cons_ne_empty (x : String) (xs : List String) (hx : x ≠ "") :
    joinDot (x :: xs) ≠ "" := by
  cases xs with
  | nil => simpa [joinDot] using hx
  | cons y ys =>
      rw [joinDot_cons x (y :: ys) (by simp)]
      apply string_ne_empty_of_data
      rw [data_append_dot]
      simp

theorem pySplit_joinDot {l : List String} (hne : l ≠ [])
    (h : ∀ d ∈ l, pyContains '.' d = false) :
    pySplit '.' (joinDot l) = l := by
  induction l with
  | nil => exact absurd rfl hne
  | cons x xs ih =>
      cases xs with
      | nil => simpa [joinDot] using pySplit_of_dot_free (h x (by simp))
      | cons y ys =>
          rw [joinDot_cons x (y :: ys) (by simp), pySplit_append_dot,
              pySplit_of_dot_free (h x (by simp))]
          rw [ih (by simp) (fun d hd => h d (List.mem_cons_of_mem x hd))]
          rfl

theorem breakAtChar_append {c : Char} {l1 : List Char} (l2 : List Char) (h : c ∉ l1) :
    breakAtChar c (l1 ++ c :: l2) = some (l1, l2) := by
  induction l1 with
  | nil => simp [breakAtChar]
  | cons x xs ih =>
      have hx : x ≠ c := fun hc => h (hc ▸ List.mem_cons_self x xs)
      have hxs : c ∉ xs := fun hc => h (List.mem_cons_of_mem x hc)
      have hstep : (x :: xs) ++ c :: l2 = x :: (xs ++ c :: l2) := rfl
      rw [hstep]
      simp only [breakAtChar, if_neg hx]
      rw [ih hxs]
      rfl

theorem stripExt_append_ext {stem ext : String} (hstem : stem ≠ "") (hext : ext ≠ "")
    (hdot : pyContains '.' ext = false) :
    stripExt (stem ++ "." ++ ext) = stem := by
  unfold stripExt
  have hrev : (stem ++ "." ++ ext).data.reverse = ext.data.reverse ++ '.' :: stem.data.reverse := by
    rw [data_append_dot]
    simp
  have hmem : '.' ∉ ext.data.reverse := by
    intro hc
    simp [pyContains] at hdot
    exact hdot (List.mem_reverse.mp hc)
  rw [hrev, breakAtChar_append _ hmem]
  have h1 : stem.data.reverse ≠ [] := by
    simpa using data_ne_of_ne_empty hstem
  have h2 : ext.data.reverse ≠ [] := by
    simpa using data_ne_of_ne_empty hext
  simp only [h1, h2, if_false, List.reverse_reverse, if_neg, not_false_iff]

/-! ### Graph algebra: every Pass-2 operation only unions in fixed sets -/

/-- A graph transformer that unions fixed node and edge sets into its input. -/
def Unional (f : Graph → Graph) : Prop :=
  ∃ N E, ∀ G, f G = ⟨G.nodes ∪ N, G.edges ∪ E⟩

theorem unional_comp {f g : Graph → Graph} (hf : Unional f) (hg : Unional g) :
    Unional (fun G => g (f G)) := by
  obtain ⟨N1, E1, h1⟩ := hf
  obtain ⟨N2, E2, h2⟩ := hg
  refine ⟨N1 ∪ N2, E1 ∪ E2, fun G => ?_⟩
  show g (f G) = _
  rw [h1, h2]
  exact Graph.eq_of (Finset.union_assoc _ _ _) (Finset.union_assoc _ _ _)

theorem unional_addNode (id : String) : Unional (fun G => addNode G id) := by
  refine ⟨{id}, ∅, fun G => ?_⟩
  show addNode G id = _
  apply Graph.eq_of
  · show insert id G.nodes = G.nodes ∪ {id}
    rw [Finset.insert_eq, Finset.union_comm]
  · show G.edges = G.edges ∪ ∅
    rw [Finset.union_empty]

theorem unional_addEdge (u v : String) : Unional (fun G => addEdge G u v) := by
  refine ⟨{u, v}, {(u, v)}, fun G => ?_⟩
  show addEdge G u v = _
  apply Graph.eq_of
  · show insert u (insert v G.nodes) = G.nodes ∪ {u, v}
    ext x
    simp only [Finset.mem_insert, Finset.mem_union, Finset.mem_singleton]
    tauto
  · show insert (u, v) G.edges = G.edges ∪ {(u, v)}
    rw [Finset.insert_eq, Finset.union_comm]

theorem unional_ensureNode (id : String) : Unional (fun G => ensureNode G id) := by
  have h : (fun G => ensureNode G id) = (fun G => addNode G id) := by
    funext G; exact ensureNode_eq G id
  rw [h]
  exact unional_addNode id

theorem unional_addImports (modId : String) (ims : Finset String) :
    Unional (fun G => addImports G modId ims) :=
  ⟨ims.image (fun im => "module:" ++ im), ims.image (fun im => (modId, "module:" ++ im)),
    fun _ => rfl⟩

theorem unional_foldl {α : Type} (step : Graph → α → Graph)
    (h : ∀ a, Unional (fun G => step G a)) (l : List α) :
    Unional (fun G => l.foldl step G) := by
  induction l with
  | nil =>
      exact ⟨∅, ∅, fun G => Graph.eq_of (Finset.union_empty _).symm
        (Finset.union_empty _).symm⟩
  | cons x xs ih => exact unional_comp (h x) ih

theorem unional_addCallStep (c : String × String) :
    Unional (fun G => addCallStep G c) := by
  unfold addCallStep
  exact unional_comp (unional_comp (unional_ensureNode c.1) (unional_ensureNode c.2))
    (unional_addEdge c.1 c.2)

theorem unional_addCalls (l : List (String × String)) :
    Unional (fun G => addCalls G l) :=
  unional_foldl addCallStep unional_addCallStep l

theorem unional_addFuncStep (modId q : String) :
    Unional (fun G => addFuncStep modId G q) := by
  unfold addFuncStep
  exact unional_comp (unional_addNode q) (unional_addEdge modId q)

theorem unional_addFuncDefs (modId : String) (l : List String) :
    Unional (fun G => addFuncDefs G modId l) :=
  unional_foldl (addFuncStep modId) (unional_addFuncStep modId) l

theorem unional_addFileFacts (mod : String) (ca : AnalyzerState) :
    Unional (fun G => addFileFacts G mod ca) := by
  unfold addFileFacts
  exact unional_comp (unional_comp (unional_comp (unional_comp
    (unional_comp (unional_addNode _) (unional_addNode _))
    (unional_addEdge _ _)) (unional_addImports _ _)) (unional_addFuncDefs _ _))
    (unional_addCalls _)

theorem addFileFacts_rightComm (a b : String × AnalyzerState) (G : Graph) :
    addFileFacts (addFileFacts G a.1 a.2) b.1 b.2 =
      addFileFacts (addFileFacts G b.1 b.2) a.1 a.2 := by
  obtain ⟨Na, Ea, ha⟩ := unional_addFileFacts a.1 a.2
  obtain ⟨Nb, Eb, hb⟩ := unional_addFileFacts b.1 b.2
  have ha' : ∀ H : Graph, addFileFacts H a.1 a.2 = ⟨H.nodes ∪ Na, H.edges ∪ Ea⟩ :=
    fun H => ha H
  have hb' : ∀ H : Graph, addFileFacts H b.1 b.2 = ⟨H.nodes ∪ Nb, H.edges ∪ Eb⟩ :=
    fun H => hb H
  rw [ha' G, hb', hb' G, ha']
  exact Graph.eq_of (Finset.union_right_comm _ _ _) (Finset.union_right_comm _ _ _)

theorem foldl_perm {α β : Type} (f : β → α → β)
    (hf : ∀ b a1 a2, f (f b a1) a2 = f (f b a2) a1)
    {l1 l2 : List α} (h : l1.Perm l2) : ∀ b, l1.foldl f b = l2.foldl f b := by
  induction h with
  | nil => intro _; rfl
  | cons x _ ih => intro b; exact ih (f b x)
  | swap x y l => intro b; simp only [List.foldl]; rw [hf]
  | trans _ _ ih1 ih2 => intro b; rw [ih1, ih2]

/-! ### The no-dangling-edges invariant -/

/-- Every edge endpoint is a node of the graph. -/
def Nodangle (G : Graph) : Prop :=
  ∀ e ∈ G.edges, e.1 ∈ G.nodes ∧ e.2 ∈ G.nodes

theorem nodangle_empty : Nodangle emptyGraph := by
  intro e he
  simp [emptyGraph] at he

theorem nodangle_addNode {G : Graph} (h : Nodangle G) (id : String) :
    Nodangle (addNode G id) := by
  intro e he
  obtain ⟨h1, h2⟩ := h e he
  exact ⟨Finset.mem_insert_of_mem h1, Finset.mem_insert_of_mem h2⟩

theorem nodangle_addEdge {G : Graph} (h : Nodangle G) (u v : String) :
    Nodangle (addEdge G u v) := by
  intro e he
  simp only [addEdge, Finset.mem_insert] at he ⊢
  rcases he with rfl | he
  · exact ⟨Or.inl rfl, Or.inr (Or.inl rfl)⟩
  · obtain ⟨h1, h2⟩ := h e he
    exact ⟨Or.inr (Or.inr h1), Or.inr (Or.inr h2)⟩

theorem nodangle_ensureNode {G : Graph} (h : Nodangle G) (id : String) :
    Nodangle (ensureNode G id) := by
  rw [ensureNode_eq]
  exact nodangle_addNode h id

theorem nodangle_addCallStep {G : Graph} (h : Nodangle G) (c : String × String) :
    Nodangle (addCallStep G c) :=
  nodangle_addEdge (nodangle_ensureNode (nodangle_ensureNode h c.1) c.2) c.1 c.2

theorem nodangle_addCalls {G : Graph} (h : Nodangle G) (l : List (String × String)) :
    Nodangle (addCalls G l) := by
  induction l generalizing G with
  | nil => exact h
  | cons x xs ih => exact ih (nodangle_addCallStep h x)

theorem nodangle_addFuncDefs {G : Graph} (h : Nodangle G) (modId : String)
    (l : List String) : Nodangle (addFuncDefs G modId l) := by
  induction l generalizing G with
  | nil => exact h
  | cons x xs ih => exact ih (nodangle_addEdge (nodangle_addNode h x) modId x)

theorem nodangle_addImports {G : Graph} (h : Nodangle G) {modId : String}
    (hm : modId ∈ G.nodes) (ims : Finset String) :
    Nodangle (addImports G modId ims) := by
  intro e he
  simp only [addImports, Finset.mem_union, Finset.mem_image] at he ⊢
  rcases he with he | ⟨im, him, hei⟩
  · obtain ⟨h1, h2⟩ := h e he
    exact ⟨Or.inl h1, Or.inl h2⟩
  · subst hei
    exact ⟨Or.inl hm, Or.inr ⟨im, him, rfl⟩⟩

theorem nodangle_addFileFacts {G : Graph} (h : Nodangle G) (mod : String)
    (ca : AnalyzerState) : Nodangle (addFileFacts G mod ca) := by
  unfold addFileFacts
  apply nodangle_addCalls
  apply nodangle_addFuncDefs
  apply nodangle_addImports
  · exact nodangle_addEdge (nodangle_addNode (nodangle_addNode h _) _) _ _
  · simp [addEdge, Finset.mem_insert]

theorem nodangle_buildGraph (rootPkg : String) (files : List SrcFile) :
    Nodangle (buildGraph rootPkg files) := by
  unfold buildGraph
  generalize (files.map _) = results
  have : ∀ (l : List (String × AnalyzerState)) (G : Graph), Nodangle G →
      Nodangle (l.foldl (fun G r => addFileFacts G r.1 r.2) G) := by
    intro l
    induction l with
    | nil => intro G hG; exact hG
    | cons x xs ih => intro G hG; exact ih _ (nodangle_addFileFacts hG x.1 x.2)
  exact this results emptyGraph nodangle_empty

theorem nodangle_pruneGraph {G : Graph} (h : Nodangle G) (ig : List String) :
    Nodangle (pruneGraph ig G) := by
  intro e he
  simp only [pruneGraph, Finset.mem_filter, Finset.mem_sdiff] at he ⊢
  obtain ⟨heG, h1, h2⟩ := he
  obtain ⟨hn1, hn2⟩ := h e heG
  exact ⟨⟨hn1, h1⟩, ⟨hn2, h2⟩⟩

/-! ### Lemmas about duplicate call recording -/

theorem addCallStep_nodes_subset (G : Graph) (c : String × String) :
    G.nodes ⊆ (addCallStep G c).nodes := by
  intro x hx
  unfold addCallStep
  rw [ensureNode_eq, ensureNode_eq]
  exact Finset.mem_insert_of_mem (Finset.mem_insert_of_mem
    (Finset.mem_insert_of_mem (Finset.mem_insert_of_mem hx)))

theorem addCallStep_edges_subset (G : Graph) (c : String × String) :
    G.edges ⊆ (addCallStep G c).edges := by
  intro x hx
  unfold addCallStep
  rw [ensureNode_eq, ensureNode_eq]
  exact Finset.mem_insert_of_mem hx

theorem addCalls_nodes_subset (G : Graph) (l : List (String × String)) :
    G.nodes ⊆ (addCalls G l).nodes := by
  induction l generalizing G with
  | nil => exact Finset.Subset.refl _
  | cons x xs ih =>
      exact (addCallStep_nodes_subset G x).trans (ih (addCallStep G x))

theorem addCalls_edges_subset (G : Graph) (l : List (String × String)) :
    G.edges ⊆ (addCalls G l).edges := by
  induction l generalizing G with
  | nil => exact Finset.Subset.refl _
  | cons x xs ih =>
      exact (addCallStep_edges_subset G x).trans (ih (addCallStep G x))

theorem mem_addCalls {c : String × String} {l : List (String × String)} (h : c ∈ l)
    (G : Graph) :
    c.1 ∈ (addCalls G l).nodes ∧ c.2 ∈ (addCalls G l).nodes ∧
      (c.1, c.2) ∈ (addCalls G l).edges := by
  induction l generalizing G with
  | nil => simp at h
  | cons x xs ih =>
      rcases List.mem_cons.mp h with rfl | hmem
      · have hn1 : c.1 ∈ (addCallStep G c).nodes := by
          unfold addCallStep
          rw [ensureNode_eq, ensureNode_eq]
          exact Finset.mem_insert_self _ _
        have hn2 : c.2 ∈ (addCallStep G c).nodes := by
          unfold addCallStep
          rw [ensureNode_eq, ensureNode_eq]
          exact Finset.mem_insert_of_mem (Finset.mem_insert_self _ _)
        have he : (c.1, c.2) ∈ (addCallStep G c).edges := by
          unfold addCallStep
          exact Finset.mem_insert_self _ _
        exact ⟨addCalls_nodes_subset _ xs hn1, addCalls_nodes_subset _ xs hn2,
          addCalls_edges_subset _ xs he⟩
      · exact ih hmem (addCallStep G x)

theorem addCallStep_id {G : Graph} {c : String × String} (h1 : c.1 ∈ G.nodes)
    (h2 : c.2 ∈ G.nodes) (h3 : (c.1, c.2) ∈ G.edges) : addCallStep G c = G := by
  unfold addCallStep
  rw [ensureNode_eq, ensureNode_eq]
  apply Graph.eq_of
  · simp only [addEdge, addNode]
    rw [Finset.insert_eq_self.mpr h1, Finset.insert_eq_self.mpr h2,
        Finset.insert_eq_self.mpr h2, Finset.insert_eq_self.mpr h1]
  · simp only [addEdge, addNode]
    exact Finset.insert_eq_self.mpr h3

/-! ### Lemmas about pruning -/

theorem pruneMatch_iff (ig : List String) (n : String) :
    pruneMatch ig n = true ↔
      ∃ q, qualPart n = some q ∧
        (q ∈ ig ∨ ∃ i ∈ ig, pyStartsWith q (i ++ ".") = true) := by
  unfold pruneMatch
  cases h : qualPart n with
  | none => simp [h]
  | some nm =>
      simp only [h, Bool.or_eq_true, Option.some.injEq]
      constructor
      · rintro (hc | ha)
        · exact ⟨nm, rfl, Or.inl (by simpa using hc)⟩
        · obtain ⟨i, hi, hp⟩ := List.any_eq_true.mp ha
          exact ⟨nm, rfl, Or.inr ⟨i, hi, hp⟩⟩
      · rintro ⟨q, rfl, hq | ⟨i, hi, hp⟩⟩
        · exact Or.inl (by simpa using hq)
        · exact Or.inr (List.any_eq_true.mpr ⟨i, hi, hp⟩)

theorem pruneGraph_idem (ig : List String) (G : Graph) :
    pruneGraph ig (pruneGraph ig G) = pruneGraph ig G := by
  apply Graph.eq_of
  · show (pruneGraph ig G).nodes \ _ = (pruneGraph ig G).nodes
    have hempty : (pruneGraph ig G).nodes.filter (fun n => pruneMatch ig n = true) = ∅ := by
      rw [Finset.filter_eq_empty_iff]
      intro x hx
      simp only [pruneGraph, Finset.mem_sdiff, Finset.mem_filter] at hx
      intro hm
      exact hx.2 ⟨hx.1, hm⟩
    rw [hempty, Finset.sdiff_empty]
  · show (pruneGraph ig G).edges.filter _ = (pruneGraph ig G).edges
    have hempty : (pruneGraph ig G).nodes.filter (fun n => pruneMatch ig n = true) = ∅ := by
      rw [Finset.filter_eq_empty_iff]
      intro x hx
      simp only [pruneGraph, Finset.mem_sdiff, Finset.mem_filter] at hx
      intro hm
      exact hx.2 ⟨hx.1, hm⟩
    rw [hempty]
    apply Finset.filter_true_of_mem
    intro e _
    exact ⟨Finset.not_mem_empty _, Finset.not_mem_empty _⟩

/-! ### The claims -/

/-- C1: after the Graph Builder's aggregation pass, and still after pruning,
every edge's two endpoints exist as nodes of the graph — no edge dangles.
(The builder creates placeholder nodes on demand for call endpoints, and
`add_edge` itself inserts missing endpoints.) -/
theorem no_dangling_edges (rootPkg : String) (files : List SrcFile) (ig : List String) :
    (∀ e ∈ (buildGraph rootPkg files).edges,
        e.1 ∈ (buildGraph rootPkg files).nodes ∧ e.2 ∈ (buildGraph rootPkg files).nodes) ∧
    (∀ e ∈ (pruneGraph ig (buildGraph rootPkg files)).edges,
        e.1 ∈ (pruneGraph ig (buildGraph rootPkg files)).nodes ∧
          e.2 ∈ (pruneGraph ig (buildGraph rootPkg files)).nodes) :=
  ⟨nodangle_buildGraph rootPkg files,
   nodangle_pruneGraph (nodangle_buildGraph rootPkg files) ig⟩

/-- Witness for C1 at a concrete one-file tree. -/
theorem no_dangling_edges_witness :
    (("file:app.main", "module:app.main") ∈
        (buildGraph "app" [⟨[], "main.py", []⟩]).edges) ∧
    ("file:app.main" ∈ (buildGraph "app" [⟨[], "main.py", []⟩]).nodes ∧
      "module:app.main" ∈ (buildGraph "app" [⟨[], "main.py", []⟩]).nodes) ∧
    (("file:app.main", "module:app.main") ∈
        (pruneGraph ["os"] (buildGraph "app" [⟨[], "main.py", []⟩])).edges) ∧
    ("file:app.main" ∈ (pruneGraph ["os"] (buildGraph "app" [⟨[], "main.py", []⟩])).nodes ∧
      "module:app.main" ∈
        (pruneGraph ["os"] (buildGraph "app" [⟨[], "main.py", []⟩])).nodes) := by
  refine ⟨by decide, ?_, by decide, ?_⟩
  · exact (no_dangling_edges "app" [⟨[], "main.py", []⟩] ["os"]).1
      ("file:app.main", "module:app.main") (by decide)
  · exact (no_dangling_edges "app" [⟨[], "main.py", []⟩] ["os"]).2
      ("file:app.main", "module:app.main") (by decide)

/-- C2: for a fixed root package and ignore set, the pipeline
(build, then prune) yields the same graph — same node set, same edge
set — for any enumeration order of the same files. -/
theorem build_prune_perm_invariant (rootPkg : String) (ig : List String)
    {files1 files2 : List SrcFile} (h : files1.Perm files2) :
    buildGraph rootPkg files1 = buildGraph rootPkg files2 ∧
    pruneGraph ig (buildGraph rootPkg files1) =
      pruneGraph ig (buildGraph rootPkg files2) := by
  have hb : buildGraph rootPkg files1 = buildGraph rootPkg files2 := by
    unfold buildGraph
    exact foldl_perm _ (fun b a1 a2 => addFileFacts_rightComm a1 a2 b)
      (h.map _) emptyGraph
  exact ⟨hb, by rw [hb]⟩

/-- Witness for C2 at a concrete two-file swap. -/
theorem build_prune_perm_invariant_witness :
    buildGraph "app" [⟨[], "main.py", []⟩, ⟨[], "util.py", []⟩] =
      buildGraph "app" [⟨[], "util.py", []⟩, ⟨[], "main.py", []⟩] ∧
    pruneGraph ["os"] (buildGraph "app" [⟨[], "main.py", []⟩, ⟨[], "util.py", []⟩]) =
      pruneGraph ["os"] (buildGraph "app" [⟨[], "util.py", []⟩, ⟨[], "main.py", []⟩]) :=
  build_prune_perm_invariant "app" ["os"]
    (List.Perm.swap (⟨[], "util.py", []⟩ : SrcFile) (⟨[], "main.py", []⟩ : SrcFile) [])

/-- C3: the Pruner removes exactly the nodes whose qualified name matches
an ignore entry (exact match or dotted-prefix extension), removes exactly
the edges incident to a removed node, and is idempotent. -/
theorem prune_exact_and_idempotent (ig : List String) (G : Graph) :
    (∀ n, n ∈ (pruneGraph ig G).nodes ↔
        n ∈ G.nodes ∧ ¬ ∃ q, qualPart n = some q ∧
          (q ∈ ig ∨ ∃ i ∈ ig, pyStartsWith q (i ++ ".") = true)) ∧
    (∀ e, e ∈ (pruneGraph ig G).edges ↔
        e ∈ G.edges ∧
          ¬ (e.1 ∈ G.nodes ∧ ∃ q, qualPart e.1 = some q ∧
              (q ∈ ig ∨ ∃ i ∈ ig, pyStartsWith q (i ++ ".") = true)) ∧
          ¬ (e.2 ∈ G.nodes ∧ ∃ q, qualPart e.2 = some q ∧
              (q ∈ ig ∨ ∃ i ∈ ig, pyStartsWith q (i ++ ".") = true))) ∧
    pruneGraph ig (pruneGraph ig G) = pruneGraph ig G := by
  refine ⟨?_, ?_, pruneGraph_idem ig G⟩
  · intro n
    simp only [pruneGraph, Finset.mem_sdiff, Finset.mem_filter, pruneMatch_iff]
    constructor
    · rintro ⟨hn, hf⟩
      exact ⟨hn, fun hex => hf ⟨hn, hex⟩⟩
    · rintro ⟨hn, hq⟩
      exact ⟨hn, fun hf => hq hf.2⟩
  · intro e
    simp only [pruneGraph, Finset.mem_filter, Finset.mem_sdiff, pruneMatch_iff]

/-- Counterexample to C4: on `from pkg.sub import fn` in module `pkg.a`
under root `pkg`, the resolved qualified name `pkg.sub.fn` is intra-package
and is recorded in the alias table, yet it is NOT added to the import set —
the code adds the resolved module part `pkg.sub` instead. -/
theorem import_set_counterexample :
    dictGet (analyze "pkg" "pkg.a"
        [.impFrom (some "pkg.sub") [("fn", none)] 0]).aliases "fn" =
      some "pkg.sub.fn" ∧
    pyStartsWith "pkg.sub.fn" "pkg" = true ∧
    "pkg.sub.fn" ∉ (analyze "pkg" "pkg.a"
        [.impFrom (some "pkg.sub") [("fn", none)] 0]).imports ∧
    (analyze "pkg" "pkg.a"
        [.impFrom (some "pkg.sub") [("fn", none)] 0]).imports = {"pkg.sub"} := by
  decide

/-- C4 as amended: the resolved qualified name of each imported name is
recorded in the alias table, and when it is intra-package the resolved
MODULE PART (not the qualified name itself) is added to the import set. -/
theorem from_import_amended (rootPkg : String) (s : AnalyzerState)
    (module? : Option String) (level : Nat) (nm : String) (asn : Option String)
    (h : nm ≠ "*") :
    let base := importFromBase s.mod module? level
    let full := if base ≠ "" then base ++ "." ++ nm else nm
    let s' := visitStmt rootPkg s (.impFrom module? [(nm, asn)] level)
    dictGet s'.aliases (asn.getD nm) = some full ∧
    (pyStartsWith full rootPkg = true → base ∈ s'.imports) ∧
    (pyStartsWith full rootPkg = false → s'.imports = s.imports) := by
  intro base full s'
  have hs' : s' = (if pyStartsWith full rootPkg
      then { s with aliases := dictInsert s.aliases (asn.getD nm) full,
                    imports := insert base s.imports }
      else { s with aliases := dictInsert s.aliases (asn.getD nm) full }) := by
    show visitImportFrom rootPkg s module? [(nm, asn)] level = _
    unfold visitImportFrom
    rw [List.foldl_cons, List.foldl_nil, if_neg h]
  rw [hs']
  cases hsw : pyStartsWith full rootPkg with
  | true =>
      rw [if_pos rfl]
      refine ⟨dictGet_dictInsert_self _ _ _, fun _ => Finset.mem_insert_self _ _, ?_⟩
      intro hc
      simp at hc
  | false =>
      rw [if_neg (by simp)]
      exact ⟨dictGet_dictInsert_self _ _ _, fun hc => by simp at hc, fun _ => rfl⟩

/-- Witness for C4's amended theorem: `from . import sub` in `pkg.a.b`. -/
theorem from_import_amended_witness :
    ("sub" ≠ "*") ∧
    (let base := importFromBase (initState "pkg.a.b").mod none 1
     let full := if base ≠ "" then base ++ "." ++ "sub" else "sub"
     let s' := visitStmt "pkg" (initState "pkg.a.b") (.impFrom none [("sub", none)] 1)
     dictGet s'.aliases ((none : Option String).getD "sub") = some full ∧
     (pyStartsWith full "pkg" = true → base ∈ s'.imports) ∧
     (pyStartsWith full "pkg" = false → s'.imports = (initState "pkg.a.b").imports)) :=
  ⟨by decide, from_import_amended "pkg" (initState "pkg.a.b") none 1 "sub" none (by decide)⟩

/-- C5: within one module, when two classes each define a method of the
same simple name, the per-file symbol table keeps only the most recently
visited definition, and a later call to the bare name resolves to that
last-registered qualified name. -/
theorem last_definition_wins (rootPkg mod cls1 cls2 nm : String) :
    dictGet (analyze rootPkg mod
      [.classDef cls1 [.funcDef nm []], .classDef cls2 [.funcDef nm []],
       .exprStmt (.call (.name nm) [])]).func_defs nm =
      some ("function:" ++ mod ++ "." ++ cls2 ++ "." ++ nm) ∧
    (analyze rootPkg mod
      [.classDef cls1 [.funcDef nm []], .classDef cls2 [.funcDef nm []],
       .exprStmt (.call (.name nm) [])]).calls =
      [("module:" ++ mod, "function:" ++ mod ++ "." ++ cls2 ++ "." ++ nm)] := by
  simp [analyze, initState, visitStmts, visitStmt, visitExpr, visitExprs,
    recordCall, dictInsert, dictGet, List.find?_cons]

/-- Counterexample to C6: `from ..m import x` in module `pkg.main` — the
number of leading dots equals the number of components of the module's
qualified name, and the source's `rsplit` keeps the first component where
the claimed trimming would leave none: the code resolves the base to
`pkg.m`, not to the claim's `m`. -/
theorem relative_trim_counterexample :
    importFromBase "pkg.main" (some "m") 2 = "pkg.m" ∧
    specRelBase "pkg.main" 2 (some "m") = "m" ∧
    importFromBase "pkg.main" (some "m") 2 ≠ specRelBase "pkg.main" 2 (some "m") := by
  decide

/-- C6 as amended: when the dot count `k` of a relative import does not
exceed the number of dots in the current module's qualified name (and the
name is well formed), the base is the module name with its last `k` dotted
components trimmed, joined to the stated suffix; in particular
`from . import sub` in `pkg.a.b` resolves relative to `pkg.a` and binds
`sub` to `pkg.a.sub`. -/
theorem relative_trim_amended (M : String) (k : Nat) (module? : Option String)
    (hk1 : 1 ≤ k) (hk2 : k ≤ (pySplit '.' M).length - 1)
    (hhead : (pySplit '.' M).head? ≠ some "") (hm : module? ≠ some "") :
    importFromBase M module? k = specRelBase M k module? ∧
    importFromBase "pkg.a.b" none 1 = "pkg.a" ∧
    dictGet (visitStmt "pkg" (initState "pkg.a.b")
      (.impFrom none [("sub", none)] 1)).aliases "sub" = some "pkg.a.sub" := by
  refine ⟨?_, by decide, by decide⟩
  unfold importFromBase specRelBase pyRsplitHead
  dsimp only
  have hk0 : k ≠ 0 := by omega
  rw [if_pos hk0]
  have hmin : min k ((pySplit '.' M).length - 1) = k := min_eq_left hk2
  rw [hmin]
  have hne : pySplit '.' M ≠ [] := by
    intro hc
    have := splitChar_ne_nil '.' M.data
    unfold pySplit at hc
    exact this (List.map_eq_nil_iff.mp hc)
  obtain ⟨p0, rest, hp⟩ := List.exists_cons_of_ne_nil hne
  have hp0 : p0 ≠ "" := by
    intro hc
    apply hhead
    rw [hp, hc]
    rfl
  have hbase : joinDot ((pySplit '.' M).take ((pySplit '.' M).length - k)) ≠ "" := by
    have hlen : 1 ≤ (pySplit '.' M).length - k := by
      have : 1 ≤ (pySplit '.' M).length := by
        rw [hp]; simp
      omega
    obtain ⟨j, hj⟩ := Nat.exists_eq_add_of_le hlen
    rw [hj, Nat.add_comm, hp]
    simp only [List.take_succ_cons]
    exact joinDot_cons_ne_empty p0 _ hp0
  cases module? with
  | none =>
      simp only [Option.getD]
      rw [if_neg (by simp)]
  | some m =>
      have hm' : m ≠ "" := fun hc => hm (by rw [hc])
      simp only [Option.getD]
      rw [if_pos hm', if_pos hbase]

/-- Witness for C6's amended theorem: one dot inside `pkg.a.b`. -/
theorem relative_trim_amended_witness :
    (1 ≤ 1) ∧ (1 ≤ (pySplit '.' "pkg.a.b").length - 1) ∧
    ((pySplit '.' "pkg.a.b").head? ≠ some "") ∧
    ((none : Option String) ≠ some "") ∧
    importFromBase "pkg.a.b" none 1 = specRelBase "pkg.a.b" 1 none := by
  refine ⟨by decide, by decide, by decide, by decide, ?_⟩
  exact (relative_trim_amended "pkg.a.b" 1 none (by decide) (by decide)
    (by decide) (by decide)).1

/-- C7: a call `a.attr(...)` through a bare name `a` aliased by an import
to an intra-package target `T` records a call pair with callee
`function:T.attr`; when the alias target fails the intra-package test the
analyzer state is unchanged — no call pair is recorded. -/
theorem alias_attribute_call (rootPkg : String) (s : AnalyzerState) (nm attr T : String)
    (ha : dictGet s.aliases nm = some T) :
    (pyStartsWith T rootPkg = true →
      visitExpr rootPkg s (.call (.attribute (.name nm) attr) []) =
        { s with calls := s.calls ++
            [(s.current_fn.getD ("module:" ++ s.mod),
              "function:" ++ T ++ "." ++ attr)] }) ∧
    (pyStartsWith T rootPkg = false →
      visitExpr rootPkg s (.call (.attribute (.name nm) attr) []) = s) := by
  constructor <;> intro hsw <;>
    simp [visitExpr, visitExprs, recordCall, ha, hsw]

/-- Witness for C7: `import pkg.sub as s` then `s.fn()`, and `import os`
then `os.getcwd()`. -/
theorem alias_attribute_call_witness :
    (dictGet (analyze "pkg" "pkg.other" [.imp [("pkg.sub", some "s")]]).aliases "s" =
      some "pkg.sub") ∧
    pyStartsWith "pkg.sub" "pkg" = true ∧
    visitExpr "pkg" (analyze "pkg" "pkg.other" [.imp [("pkg.sub", some "s")]])
        (.call (.attribute (.name "s") "fn") []) =
      { analyze "pkg" "pkg.other" [.imp [("pkg.sub", some "s")]] with
        calls := (analyze "pkg" "pkg.other" [.imp [("pkg.sub", some "s")]]).calls ++
          [((analyze "pkg" "pkg.other" [.imp [("pkg.sub", some "s")]]).current_fn.getD
              ("module:" ++ (analyze "pkg" "pkg.other" [.imp [("pkg.sub", some "s")]]).mod),
            "function:" ++ "pkg.sub" ++ "." ++ "fn")] } ∧
    (dictGet (analyze "pkg" "pkg.other" [.imp [("os", none)]]).aliases "os" = some "os") ∧
    pyStartsWith "os" "pkg" = false ∧
    visitExpr "pkg" (analyze "pkg" "pkg.other" [.imp [("os", none)]])
        (.call (.attribute (.name "os") "getcwd") []) =
      analyze "pkg" "pkg.other" [.imp [("os", none)]] := by
  refine ⟨by decide, by decide, ?_, by decide, by decide, ?_⟩
  · exact (alias_attribute_call "pkg" (analyze "pkg" "pkg.other"
      [.imp [("pkg.sub", some "s")]]) "s" "fn" "pkg.sub" (by decide)).1 (by decide)
  · exact (alias_attribute_call "pkg" (analyze "pkg" "pkg.other"
      [.imp [("os", none)]]) "os" "getcwd" "os" (by decide)).2 (by decide)

/-- C8: the Module Namer returns the root package's name, a dot, and the
dot-joined path components with the file extension stripped; splitting the
result at dots recovers the root package's components followed exactly by
the path components relative to the root, extension removed. -/
theorem module_name_roundtrip (rootPkg stem ext : String) (dirs : List String)
    (hstem : stem ≠ "") (hext : ext ≠ "")
    (hs : pyContains '.' stem = false) (he : pyContains '.' ext = false)
    (hd : ∀ d ∈ dirs, pyContains '.' d = false) :
    moduleName rootPkg dirs (stem ++ "." ++ ext) =
      rootPkg ++ "." ++ joinDot (dirs ++ [stem]) ∧
    pySplit '.' (moduleName rootPkg dirs (stem ++ "." ++ ext)) =
      pySplit '.' rootPkg ++ (dirs ++ [stem]) := by
  have hst : stripExt (stem ++ "." ++ ext) = stem := stripExt_append_ext hstem hext he
  have h1 : moduleName rootPkg dirs (stem ++ "." ++ ext) =
      rootPkg ++ "." ++ joinDot (dirs ++ [stem]) := by
    unfold moduleName
    rw [hst]
  refine ⟨h1, ?_⟩
  rw [h1, pySplit_append_dot, pySplit_joinDot (by simp) ?hdirs]
  case hdirs =>
    intro d hd'
    rcases List.mem_append.mp hd' with hmem | hmem
    · exact hd d hmem
    · simp at hmem
      subst hmem
      exact hs

/-- Witness for C8: `sub/util.py` under root package `app`. -/
theorem module_name_roundtrip_witness :
    ("util" ≠ "") ∧ ("py" ≠ "") ∧
    pyContains '.' "util" = false ∧ pyContains '.' "py" = false ∧
    (∀ d ∈ ["sub"], pyContains '.' d = false) ∧
    pySplit '.' (moduleName "app" ["sub"] ("util" ++ "." ++ "py")) =
      pySplit '.' "app" ++ (["sub"] ++ ["util"]) := by
  refine ⟨by decide, by decide, by decide, by decide, by decide, ?_⟩
  exact (module_name_roundtrip "app" "util" "py" ["sub"] (by decide) (by decide)
    (by decide) (by decide) (by decide)).2

/-- C9: the graph deduplicates parallel edges — as a set of ordered pairs
it holds each edge at most once (also after pruning), and recording the
same call pair a second time leaves the graph unchanged. -/
theorem edges_deduplicated :
    (∀ (rootPkg : String) (files : List SrcFile) (ig : List String) (e : String × String),
        (buildGraph rootPkg files).edges.val.count e ≤ 1 ∧
        (pruneGraph ig (buildGraph rootPkg files)).edges.val.count e ≤ 1) ∧
    (∀ (G : Graph) (l : List (String × String)) (c : String × String),
        c ∈ l → addCalls G (l ++ [c]) = addCalls G l) := by
  constructor
  · intro rootPkg files ig e
    exact ⟨Multiset.nodup_iff_count_le_one.mp (buildGraph rootPkg files).edges.nodup e,
      Multiset.nodup_iff_count_le_one.mp
        (pruneGraph ig (buildGraph rootPkg files)).edges.nodup e⟩
  · intro G l c hc
    show (l ++ [c]).foldl addCallStep G = addCalls G l
    rw [List.foldl_append]
    obtain ⟨h1, h2, h3⟩ := mem_addCalls hc G
    exact addCallStep_id h1 h2 h3

/-- Witness for C9: recording the same call pair twice equals once. -/
theorem edges_deduplicated_witness :
    (("module:a", "function:a.f") ∈ [("module:a", "function:a.f")]) ∧
    addCalls emptyGraph
        ([("module:a", "function:a.f")] ++ [("module:a", "function:a.f")]) =
      addCalls emptyGraph [("module:a", "function:a.f")] :=
  ⟨by decide, edges_deduplicated.2 emptyGraph [("module:a", "function:a.f")]
    ("module:a", "function:a.f") (by decide)⟩

/-- C10: the intra-package test is a raw character-prefix check: under root
package `app`, the external `import apple` is (wrongly, but by design of
the code) treated as intra-package — it lands in the import set and its
attribute calls produce call pairs. -/
theorem raw_prefix_intra_package :
    pyStartsWith "apple" "app" = true ∧
    (analyze "app" "app.main"
      [.imp [("apple", none)],
       .exprStmt (.call (.attribute (.name "apple") "getcwd") [])]).imports =
      {"apple"} ∧
    (analyze "app" "app.main"
      [.imp [("apple", none)],
       .exprStmt (.call (.attribute (.name "apple") "getcwd") [])]).calls =
      [("module:app.main", "function:apple.getcwd")] := by
  decide

end ASTwalker
